import Mathlib

/-!
Shallow embedding of the `lscerts` program (GPL, arnhemcr), the variant that
accumulates success records and sorts them before printing.

Conventions of the embedding:
* Go strings are modelled as `List Char` inside the URL parser (where the
  proofs need list reasoning) and as `String` elsewhere.
* Machine `int64` arithmetic appears only in `getToExpiry`; the hour counts
  involved are far below `2^63`, so plain `Int` is used.
* Fallible Go functions returning `(value, error)` pairs are modelled with
  explicit pair or sum types.
* Go standard-library behaviour (`net/url`, `crypto/tls`, `time`) is modelled
  by Lean definitions whose doc comments say exactly what they model.
-/

namespace Lscerts

/-- Models Go `net/url` scheme characters: letters, digits, `+`, `-`, `.`. -/
def isSchemeChar (c : Char) : Bool :=
  c.isAlpha || c.isDigit || c == '+' || c == '-' || c == '.'

/-- Models Go `net/url.getScheme`: split `cs` at the first `:` that terminates a
valid scheme prefix.  Returns `none` exactly when the string starts with `:`
(Go's "missing protocol scheme" error); returns `some ([], cs)` when no scheme
is present; otherwise `some (scheme, rest)`. -/
def getScheme (cs : List Char) : Option (List Char × List Char) :=
  match cs with
  | [] => some ([], [])
  | c :: _ =>
    if c == ':' then none
    else if !c.isAlpha then some ([], cs)
    else
      match cs.dropWhile isSchemeChar with
      | ':' :: tail => some (cs.takeWhile isSchemeChar, tail)
      | _ => some ([], cs)

/-- Truncates a character list at the first occurrence of `sep` (models the
`split(s, sep, true)` calls in Go `net/url`, keeping only the part before the
separator, which is all `getHostPort` ever uses). -/
def stripAtFirst (sep : Char) (l : List Char) : List Char :=
  l.takeWhile (fun c => !(c == sep))

/-- Splits a character list at the LAST occurrence of `sep`, returning the
parts before and after it, or `none` when `sep` does not occur (models the
`strings.LastIndex` idiom of Go `net/url`). -/
def splitAtLast (sep : Char) : List Char → Option (List Char × List Char)
  | [] => none
  | c :: rest =>
    match splitAtLast sep rest with
    | some (pre, post) => some (c :: pre, post)
    | none => if c == sep then some ([], rest) else none

/-- Models Go `net/url.validOptionalPort`: empty, or `:` followed by decimal
digits only. -/
def validOptionalPort (p : List Char) : Bool :=
  match p with
  | [] => true
  | c :: digits => c == ':' && digits.all Char.isDigit

/-- Models Go `net/url` `ishex`: decimal digits and the hex letters of either
case. -/
def isHexChar (c : Char) : Bool :=
  c.isDigit || ('a' ≤ c && c ≤ 'f') || ('A' ≤ c && c ≤ 'F')

/-- Models the error condition of Go `net/url.unescape` for path, fragment and
userinfo: every `%` must be followed by two hex digits. -/
def validEscapes : List Char → Bool
  | [] => true
  | c :: rest =>
    if c = '%' then
      match rest with
      | c1 :: c2 :: rest2 => isHexChar c1 && isHexChar c2 && validEscapes rest2
      | _ => false
    else validEscapes rest

/-- Models the error condition of Go `net/url.unescape` in `encodeHost` mode:
every `%` must be followed by two hex digits and, except for `%25`, the escape
must denote a byte of `0x80` or above (first hex digit `8` or higher). -/
def validHostEscapes : List Char → Bool
  | [] => true
  | c :: rest =>
    if c = '%' then
      match rest with
      | c1 :: c2 :: rest2 =>
        isHexChar c1 && isHexChar c2 &&
          (decide (55 < c1.toNat) || (c1 == '2' && c2 == '5')) &&
          validHostEscapes rest2
      | _ => false
    else validHostEscapes rest

/-- Models Go `stringContainsCTLByte`: an ASCII control byte is one below
space, or DEL.  Characters at or above `0x80` occupy only bytes at or above
`0x80` in UTF-8, so the character-level check agrees with Go's byte-level
one. -/
def isCTLChar (c : Char) : Bool :=
  decide (c.toNat < 32) || c.toNat == 127

/-- Models Go `net/url.validUserinfo`: the characters RFC 3986 allows in the
userinfo subcomponent. -/
def isUserinfoChar (c : Char) : Bool :=
  c.isAlpha || c.isDigit ||
  c == '-' || c == '.' || c == '_' || c == ':' || c == '~' || c == '!' ||
  c == '$' || c == '&' || c == '\'' || c == '(' || c == ')' || c == '*' ||
  c == '+' || c == ',' || c == ';' || c == '=' || c == '%' || c == '@'

/-- Models Go `net/url.parseHost` for non-bracketed hosts: the suffix after
the last `:` (when there is one) must be a valid port, and the percent-escapes
of the host must be valid in host mode.  Valid escapes are checked but not
decoded (Go stores the decoded host; no claim's domain contains a host
escape, and decoding cannot change the scheme or the success of parsing).
Bracketed (IPv6) hosts are outside the modelled domain and fail here. -/
def parseHost (host : List Char) : Option (List Char) :=
  if host.head? = some '[' then none
  else
    match splitAtLast ':' host with
    | none => if validHostEscapes host then some host else none
    | some (_, post) =>
      if validOptionalPort (':' :: post) then
        if validHostEscapes host then some host else none
      else none

/-- Models Go `net/url.parseAuthority`: the host part is whatever follows the
last `@`; a present userinfo must consist of the RFC 3986 userinfo characters
and carry valid percent-escapes. -/
def parseAuthority (authority : List Char) : Option (List Char) :=
  match splitAtLast '@' authority with
  | none => parseHost authority
  | some (userinfo, hostPart) =>
    if userinfo.all isUserinfoChar && validEscapes userinfo then parseHost hostPart
    else none

/-- Result of Go `net/url.Parse` restricted to the two fields `getHostPort`
reads: the (lower-cased) scheme and the host (which, as in Go's `URL.Host`,
still carries any `:port` suffix). -/
structure GoURL where
  scheme : List Char
  host : List Char
deriving DecidableEq, Repr

/-- Models Go `URL.Port()` via `splitHostPort`: the digits after the last `:`
of the host when that suffix is a valid optional port, else empty. -/
def GoURL.port (u : GoURL) : List Char :=
  match splitAtLast ':' u.host with
  | none => []
  | some (_, post) => if validOptionalPort (':' :: post) then post else []

/-- Returns the characters after the first occurrence of `sep`, or the empty
list when `sep` does not occur (the second component of Go `net/url`'s
`split(s, sep, true)`). -/
def dropThroughFirst (sep : Char) (l : List Char) : List Char :=
  (l.dropWhile (fun c => !(c == sep))).drop 1

/-- Second stage of `parseURL`, mirroring the branch order of Go
`net/url.parse` after the scheme and query have been split off: a remainder
not starting with `/` is opaque for a non-empty scheme (no further checks) and
otherwise a rootless path whose first segment must not contain `:` and whose
escapes must be valid; a `//` remainder (except `///` with an empty scheme)
carries an authority followed by a path with valid escapes; any other `/`
remainder is a path with valid escapes and no authority. -/
def parseAfterScheme (scheme rest : List Char) : Option GoURL :=
  if rest.head? ≠ some '/' then
    if scheme ≠ [] then some ⟨scheme, []⟩
    else if (rest.takeWhile (fun c => !(c == '/'))).any (fun c => c == ':') then none
    else if validEscapes rest then some ⟨scheme, []⟩ else none
  else if rest.take 2 = ['/', '/'] ∧ (scheme ≠ [] ∨ rest.take 3 ≠ ['/', '/', '/']) then
    match parseAuthority ((rest.drop 2).takeWhile (fun c => !(c == '/'))) with
    | none => none
    | some host =>
      if validEscapes ((rest.drop 2).dropWhile (fun c => !(c == '/'))) then
        some ⟨scheme, host⟩
      else none
  else if validEscapes rest then some ⟨scheme, []⟩ else none

/-- Models Go `net/url.Parse`: the fragment is split off first, the part
before it must be free of ASCII control characters, then the scheme is split
off (and lower-cased as in Go) and the query stripped, the remainder is parsed
by `parseAfterScheme`, and finally the fragment's percent-escapes are
validated. -/
def parseURL (cs : List Char) : Option GoURL :=
  if (stripAtFirst '#' cs).any isCTLChar then none
  else
    match getScheme (stripAtFirst '#' cs) with
    | none => none
    | some (schemeRaw, afterScheme) =>
      match parseAfterScheme (schemeRaw.map Char.toLower) (stripAtFirst '?' afterScheme) with
      | none => none
      | some url =>
        if validEscapes (dropThroughFirst '#' cs) then some url else none

/-- Identity of the two error paths of `getHostPort` in the Go source: the
wrapped `url.Parse` error and the "url scheme not https" error. -/
inductive UrlError where
  | parseError
  | schemeError
deriving DecidableEq, Repr

/-- Embeds `getHostPort` from `lscerts.go`: parse the string as a URL, reject
non-`https` schemes, and return `URL.Host`, appending `:443` when the URL
carries no explicit port.  The Go function returns `(hostPort, err)`; the pair
is kept so the error-path value of `hostPort` stays observable. -/
def getHostPort (str : List Char) : List Char × Option UrlError :=
  match parseURL str with
  | none => ([], some UrlError.parseError)
  | some url =>
    if url.scheme ≠ "https".data then ([], some UrlError.schemeError)
    else
      let hostPort := url.host
      if url.port = [] then (hostPort ++ ":443".data, none)
      else (hostPort, none)

/-- Characters allowed in the host names quantified over by the well-formed
URL property: letters, digits, dot and hyphen (the DNS host-name
alphabet). -/
def isHostChar (c : Char) : Bool :=
  c.isAlpha || c.isDigit || c == '.' || c == '-'

/-- Text contributed to a URL by an optional explicit port. -/
def portSegment : Option (List Char) → List Char
  | none => []
  | some p => ':' :: p

/-- Endpoint expected from `getHostPort`: the host followed by the explicit
port when one was given, by `443` otherwise. -/
def defaultedHostPort (host : List Char) : Option (List Char) → List Char
  | none => host ++ ":443".data
  | some p => host ++ ':' :: p

/-- Nanoseconds per hour: Go `time.Hour` as an integer count of nanoseconds. -/
def nsPerHour : Int := 3600 * 1000000000

/-- Models `int64(time.Until(expiry).Hours())` from the Go source with the
clock reading passed explicitly: the nanosecond difference divided by one hour
with the quotient truncated toward zero (Go `Duration` division and Go
float-to-int conversion both truncate toward zero; the float detour is exact
for every hour count below `2^52`). -/
def hoursRemaining (expiry now : Int) : Int :=
  (expiry - now).tdiv nsPerHour

/-- Embeds `getToExpiry` from `lscerts.go` (the sorted variant with the year
bucket), with Go's implicit `time.Now()` passed explicitly as `now`.  The
source constants are inlined: `hoursPerDay = 24`, `hoursPerWeek = 24*7 = 168`,
`hoursPerYear = 168*52 = 8736`. -/
def getToExpiry (expiry now : Int) : String :=
  let hours : Int := hoursRemaining expiry now
  if hours < 0 then "expired"
  else if hours < 1 then "<1h"
  else if hours ≤ 24 then toString hours ++ "h"
  else if hours ≤ 168 then toString (hours.tdiv 24) ++ "d"
  else if hours ≤ 8736 then toString (hours.tdiv 168) ++ "w"
  else toString (hours.tdiv 8736) ++ "y"

/-- Fields of an X509 certificate that `lscerts` reads: `NotAfter` (as a
nanosecond timestamp), `SerialNumber`, and the rendered issuer name. -/
structure Cert where
  notAfter : Int
  serialNumber : Int
  issuer : String
deriving DecidableEq, Repr

/-- Models the outcome of Go `tls.DialWithDialer`: either an error (connect
timeout or TLS handshake/validation failure) or a validated peer certificate
chain as presented by the server. -/
inductive DialResult where
  | failure (cause : String)
  | success (peerCertificates : List Cert)
deriving DecidableEq, Repr

/-- Outcome of `fetchCert`: the Go function returns `(cert, err)`, and indexing
`PeerCertificates[0]` on an empty chain would be a runtime panic, modelled
explicitly. -/
inductive FetchOutcome where
  | fetchError (msg : String)
  | panicked
  | leaf (cert : Cert)
deriving DecidableEq, Repr

/-- Embeds `fetchCert` from `lscerts.go`: on dial error, wrap the cause with
the executable name and endpoint; on success, take `PeerCertificates[0]` as
the leaf certificate. -/
def fetchCert (hostPort : String) (dial : DialResult) : FetchOutcome :=
  match dial with
  | DialResult.failure cause =>
    FetchOutcome.fetchError ("lscerts \"" ++ hostPort ++ "\": " ++ cause)
  | DialResult.success peerCertificates =>
    match peerCertificates with
    | [] => FetchOutcome.panicked
    | leafCert :: _ => FetchOutcome.leaf leafCert

/-- Embeds the blank/comment filter of the main loop: `line == "" || line[0]
== '#'`. -/
def isIgnored (line : String) : Bool :=
  match line.data with
  | [] => true
  | c :: _ => c == '#'

/-- Error line written to standard error for a `getHostPort` failure.  The
scheme message is the literal one from the source; the parse message stands
for Go's wrapped `url.Parse` error text, whose exact wording the embedding
does not depend on. -/
def urlErrorMsg (line : String) : UrlError → String
  | UrlError.parseError => "lscerts parse \"" ++ line ++ "\": invalid URL"
  | UrlError.schemeError => "lscerts \"" ++ line ++ "\": url scheme not https"

/-- Embeds the success-record construction of the main loop: the five fields
joined by single spaces, in source order.  `fmtDate` models
`Time.Format(time.DateOnly)`, supplied externally. -/
def mkRecord (fmtDate : Int → String) (now : Int) (url : String) (cert : Cert) : String :=
  String.intercalate " "
    [fmtDate cert.notAfter, getToExpiry cert.notAfter now, url,
     toString cert.serialNumber, cert.issuer]

/-- What one iteration of the main loop does with one input line. -/
inductive LineOutcome where
  | ignored
  | failure (msg : String)
  | panicked
  | success (record : String)
deriving DecidableEq, Repr

/-- Embeds the body of the main loop of `lscerts.go` for a single line:
skip blank/comment lines, resolve the endpoint, fetch the certificate
(`net` models the network: endpoint to dial outcome), and build the success
record. -/
def lineResult (net : String → DialResult) (fmtDate : Int → String) (now : Int)
    (line : String) : LineOutcome :=
  if isIgnored line then LineOutcome.ignored
  else
    match (getHostPort line.data).2 with
    | some e => LineOutcome.failure (urlErrorMsg line e)
    | none =>
      let hostPort : String := ⟨(getHostPort line.data).1⟩
      match fetchCert hostPort (net hostPort) with
      | FetchOutcome.fetchError msg => LineOutcome.failure msg
      | FetchOutcome.panicked => LineOutcome.panicked
      | FetchOutcome.leaf cert => LineOutcome.success (mkRecord fmtDate now line cert)

/-- State accumulated by the main loop: the success records (`details` in the
source) and the lines written to standard error, each in the order produced. -/
structure LoopState where
  details : List String
  errLines : List String
deriving DecidableEq, Repr

/-- Embeds the scan loop of `main`: process the input lines in order,
appending one success record or one error line per non-ignored line; `none`
models the program aborting on the (defensive) index-out-of-range panic. -/
def runLines (net : String → DialResult) (fmtDate : Int → String) (now : Int)
    (st : LoopState) : List String → Option LoopState
  | [] => some st
  | line :: rest =>
    match lineResult net fmtDate now line with
    | LineOutcome.ignored => runLines net fmtDate now st rest
    | LineOutcome.failure msg =>
      runLines net fmtDate now ⟨st.details, st.errLines ++ [msg]⟩ rest
    | LineOutcome.panicked => none
    | LineOutcome.success r =>
      runLines net fmtDate now ⟨st.details ++ [r], st.errLines⟩ rest

/-- Embeds `sort.Strings(details)` at the end of `main`: Go's sort on a slice
of strings produces the unique sorted rearrangement (equal strings are
indistinguishable), here realised by `mergeSort` under the lexicographic
order on strings. -/
def finalize (details : List String) : List String :=
  details.mergeSort (fun a b => decide (a ≤ b))

/-! ## Helper lemmas for the URL parser -/

lemma takeWhile_append_of_all {p : Char → Bool} {l1 l2 : List Char}
    (h : ∀ c ∈ l1, p c = true) :
    (l1 ++ l2).takeWhile p = l1 ++ l2.takeWhile p := by
  induction l1 with
  | nil => simp
  | cons c cs ih =>
    simp [List.takeWhile_cons, h c (List.mem_cons_self c cs),
      ih (fun x hx => h x (List.mem_cons_of_mem c hx))]

lemma stripAtFirst_append {sep : Char} {l1 l2 : List Char}
    (h : ∀ c ∈ l1, ¬(c = sep)) :
    stripAtFirst sep (l1 ++ l2) = l1 ++ stripAtFirst sep l2 :=
  takeWhile_append_of_all (by intro c hc; simpa using h c hc)

lemma stripAtFirst_cons_of_ne {sep c : Char} (l : List Char) (h : ¬(c = sep)) :
    stripAtFirst sep (c :: l) = c :: stripAtFirst sep l := by
  simp [stripAtFirst, List.takeWhile_cons, beq_eq_false_iff_ne.mpr h]

lemma splitAtLast_eq_none {sep : Char} {l : List Char} (h : ∀ c ∈ l, ¬(c = sep)) :
    splitAtLast sep l = none := by
  induction l with
  | nil => rfl
  | cons c cs ih =>
    have hc := h c (List.mem_cons_self c cs)
    simp [splitAtLast, ih (fun x hx => h x (List.mem_cons_of_mem c hx)),
      beq_eq_false_iff_ne.mpr hc]

lemma splitAtLast_append {sep : Char} (l1 l2 : List Char)
    (h2 : ∀ c ∈ l2, ¬(c = sep)) :
    splitAtLast sep (l1 ++ sep :: l2) = some (l1, l2) := by
  induction l1 with
  | nil => simp [splitAtLast, splitAtLast_eq_none h2]
  | cons c cs ih => simp [splitAtLast, ih]

lemma getScheme_https_pre (rest : List Char) :
    getScheme ("https://".data ++ rest) = some ("https".data, '/' :: '/' :: rest) := rfl

lemma isHostChar_spec {c : Char} (h : isHostChar c = true) :
    ¬(c = '#') ∧ ¬(c = '?') ∧ ¬(c = '/') ∧ ¬(c = ':') ∧ ¬(c = '@') ∧ ¬(c = '[')
      ∧ ¬(c = '%') := by
  refine ⟨?_, ?_, ?_, ?_, ?_, ?_, ?_⟩ <;> rintro rfl <;> exact absurd h (by decide)

lemma isDigit_spec {c : Char} (h : c.isDigit = true) :
    ¬(c = '#') ∧ ¬(c = '?') ∧ ¬(c = '/') ∧ ¬(c = ':') ∧ ¬(c = '@') ∧ ¬(c = '%') := by
  refine ⟨?_, ?_, ?_, ?_, ?_, ?_⟩ <;> rintro rfl <;> exact absurd h (by decide)

lemma isDigit_toNat {c : Char} (h : c.isDigit = true) : 48 ≤ c.toNat ∧ c.toNat ≤ 57 := by
  unfold Char.isDigit at h
  simp only [Bool.and_eq_true, decide_eq_true_eq] at h
  obtain ⟨h1, h2⟩ := h
  exact ⟨h1, h2⟩

lemma isAlpha_toNat {c : Char} (h : c.isAlpha = true) :
    (65 ≤ c.toNat ∧ c.toNat ≤ 90) ∨ (97 ≤ c.toNat ∧ c.toNat ≤ 122) := by
  unfold Char.isAlpha Char.isUpper Char.isLower at h
  simp only [Bool.or_eq_true, Bool.and_eq_true, decide_eq_true_eq] at h
  rcases h with ⟨h1, h2⟩ | ⟨h1, h2⟩
  · exact Or.inl ⟨h1, h2⟩
  · exact Or.inr ⟨h1, h2⟩

lemma not_ctl_of_toNat_range {c : Char} (h1 : 33 ≤ c.toNat) (h2 : c.toNat ≤ 126) :
    isCTLChar c = false := by
  unfold isCTLChar
  rw [Bool.or_eq_false_iff]
  constructor
  · simp only [decide_eq_false_iff_not]
    omega
  · rw [beq_eq_false_iff_ne]
    omega

lemma isHostChar_not_ctl {c : Char} (h : isHostChar c = true) : isCTLChar c = false := by
  unfold isHostChar at h
  simp only [Bool.or_eq_true, beq_iff_eq] at h
  rcases h with ((ha | hd) | rfl) | rfl
  · rcases isAlpha_toNat ha with ⟨h1, h2⟩ | ⟨h1, h2⟩ <;>
      exact not_ctl_of_toNat_range (by omega) (by omega)
  · obtain ⟨h1, h2⟩ := isDigit_toNat hd
    exact not_ctl_of_toNat_range (by omega) (by omega)
  · decide
  · decide

lemma isDigit_not_ctl {c : Char} (h : c.isDigit = true) : isCTLChar c = false := by
  obtain ⟨h1, h2⟩ := isDigit_toNat h
  exact not_ctl_of_toNat_range (by omega) (by omega)

lemma dropWhile_append_of_all {p : Char → Bool} {l1 l2 : List Char}
    (h : ∀ c ∈ l1, p c = true) :
    (l1 ++ l2).dropWhile p = l2.dropWhile p := by
  induction l1 with
  | nil => rfl
  | cons c cs ih =>
    simp [List.dropWhile_cons, h c (List.mem_cons_self c cs),
      ih (fun x hx => h x (List.mem_cons_of_mem c hx))]

lemma dropThroughFirst_append {sep : Char} {l1 l2 : List Char}
    (h : ∀ c ∈ l1, ¬(c = sep)) :
    dropThroughFirst sep (l1 ++ l2) = dropThroughFirst sep l2 := by
  unfold dropThroughFirst
  rw [dropWhile_append_of_all (fun c hc => by simpa using h c hc)]

lemma mem_stripAtFirst {sep : Char} {l : List Char} {x : Char}
    (hx : x ∈ stripAtFirst sep l) : x ∈ l :=
  List.Sublist.mem hx (List.takeWhile_sublist _)

lemma mem_dropThroughFirst {sep : Char} {l : List Char} {x : Char}
    (hx : x ∈ dropThroughFirst sep l) : x ∈ l :=
  List.Sublist.mem (List.Sublist.mem hx (List.drop_sublist 1 _)) (List.dropWhile_sublist _)

lemma validEscapes_of_no_percent (l : List Char) (h : ∀ c ∈ l, ¬(c = '%')) :
    validEscapes l = true := by
  induction l with
  | nil => rfl
  | cons c rest ih =>
    rw [validEscapes.eq_def]
    dsimp only
    rw [if_neg (h c (List.mem_cons_self c rest))]
    exact ih (fun x hx => h x (List.mem_cons_of_mem c hx))

lemma validHostEscapes_of_no_percent (l : List Char) (h : ∀ c ∈ l, ¬(c = '%')) :
    validHostEscapes l = true := by
  induction l with
  | nil => rfl
  | cons c rest ih =>
    rw [validHostEscapes.eq_def]
    dsimp only
    rw [if_neg (h c (List.mem_cons_self c rest))]
    exact ih (fun x hx => h x (List.mem_cons_of_mem c hx))

lemma parseURL_https (A path : List Char)
    (hA : ∀ c ∈ A, ¬(c = '#') ∧ ¬(c = '?') ∧ ¬(c = '/') ∧ isCTLChar c = false)
    (hpath : path = [] ∨ ∃ q, path = '/' :: q)
    (hpathc : ∀ c ∈ path, isCTLChar c = false ∧ ¬(c = '%')) :
    parseURL ("https://".data ++ (A ++ path))
      = Option.map (fun h => GoURL.mk "https".data h) (parseAuthority A) := by
  have h1 : stripAtFirst '#' (A ++ path) = A ++ stripAtFirst '#' path :=
    stripAtFirst_append (fun c hc => (hA c hc).1)
  have hpath1 : stripAtFirst '#' path = [] ∨ ∃ q, stripAtFirst '#' path = '/' :: q := by
    rcases hpath with rfl | ⟨q, rfl⟩
    · exact Or.inl rfl
    · exact Or.inr ⟨stripAtFirst '#' q, stripAtFirst_cons_of_ne q (by decide)⟩
  have h2 : stripAtFirst '?' (A ++ stripAtFirst '#' path)
      = A ++ stripAtFirst '?' (stripAtFirst '#' path) :=
    stripAtFirst_append (fun c hc => (hA c hc).2.1)
  have hpath2 : stripAtFirst '?' (stripAtFirst '#' path) = []
      ∨ ∃ q, stripAtFirst '?' (stripAtFirst '#' path) = '/' :: q := by
    rcases hpath1 with h | ⟨q, hq⟩
    · exact Or.inl (by rw [h]; rfl)
    · exact Or.inr ⟨stripAtFirst '?' q, by rw [hq]; exact stripAtFirst_cons_of_ne q (by decide)⟩
  have h3 : (A ++ stripAtFirst '?' (stripAtFirst '#' path)).takeWhile (fun c => !(c == '/'))
      = A := by
    rw [takeWhile_append_of_all (fun c hc => by simpa using (hA c hc).2.2.1)]
    rcases hpath2 with h | ⟨q, hq⟩
    · rw [h]; simp
    · rw [hq]; simp [List.takeWhile_cons]
  have h4 : (A ++ stripAtFirst '?' (stripAtFirst '#' path)).dropWhile (fun c => !(c == '/'))
      = stripAtFirst '?' (stripAtFirst '#' path) := by
    rw [dropWhile_append_of_all (fun c hc => by simpa using (hA c hc).2.2.1)]
    rcases hpath2 with h | ⟨q, hq⟩
    · rw [h]; rfl
    · rw [hq]; simp [List.dropWhile_cons]
  have hval2 : validEscapes (stripAtFirst '?' (stripAtFirst '#' path)) = true :=
    validEscapes_of_no_percent _
      (fun c hc => (hpathc c (mem_stripAtFirst (mem_stripAtFirst hc))).2)
  have hctl : (stripAtFirst '#' ("https://".data ++ (A ++ path))).any isCTLChar = false := by
    rw [@stripAtFirst_append '#' "https://".data (A ++ path) (by decide), h1]
    rw [List.any_eq_false]
    intro x hx
    rcases List.mem_append.mp hx with hx | hx
    · have hpre : ∀ c ∈ "https://".data, isCTLChar c = false := by decide
      simp [hpre x hx]
    · rcases List.mem_append.mp hx with hx | hx
      · simp [(hA x hx).2.2.2]
      · simp [(hpathc x (mem_stripAtFirst hx)).1]
  have hfrag : validEscapes (dropThroughFirst '#' ("https://".data ++ (A ++ path))) = true := by
    rw [show ("https://".data ++ (A ++ path)) = ("https://".data ++ A) ++ path by
      simp [List.append_assoc]]
    rw [@dropThroughFirst_append '#' ("https://".data ++ A) path (by
      intro c hc
      rcases List.mem_append.mp hc with hc | hc
      · have hpre : ∀ x ∈ "https://".data, ¬(x = '#') := by decide
        exact hpre c hc
      · exact (hA c hc).1)]
    exact validEscapes_of_no_percent _ (fun c hc => (hpathc c (mem_dropThroughFirst hc)).2)
  have hPAS : parseAfterScheme "https".data
      ('/' :: '/' :: (A ++ stripAtFirst '?' (stripAtFirst '#' path)))
      = Option.map (fun h => GoURL.mk "https".data h) (parseAuthority A) := by
    unfold parseAfterScheme
    rw [if_neg (by simp)]
    rw [if_pos ⟨rfl, Or.inl (by decide)⟩]
    simp only [List.drop_succ_cons, List.drop_zero]
    rw [h3, h4]
    cases hpa : parseAuthority A
    · rfl
    · dsimp only [Option.map]
      rw [if_pos hval2]
  unfold parseURL
  rw [if_neg (by rw [hctl]; exact Bool.false_ne_true)]
  rw [@stripAtFirst_append '#' "https://".data (A ++ path) (by decide), h1, getScheme_https_pre]
  dsimp only
  rw [show List.map Char.toLower "https".data = "https".data from rfl]
  rw [stripAtFirst_cons_of_ne _ (by decide), stripAtFirst_cons_of_ne _ (by decide), h2]
  rw [hPAS]
  cases parseAuthority A
  · rfl
  · dsimp only [Option.map]
    rw [if_pos hfrag]

/-- C1: for every well-formed `https://host[:port]/...` string — DNS-alphabet
host, decimal port, and a path free of percent-escapes and ASCII control
characters — `getHostPort` returns the endpoint `host:port`, with the port
defaulted to `443` when the URL omits one and exactly the specified port
otherwise, and no error. -/
theorem getHostPort_https_wellformed (host path : List Char) (portOpt : Option (List Char))
    (hne : host ≠ [])
    (hhost : ∀ c ∈ host, isHostChar c = true)
    (hport : ∀ p, portOpt = some p → p ≠ [] ∧ ∀ c ∈ p, c.isDigit = true)
    (hpath : path = [] ∨ ∃ q, path = '/' :: q)
    (hpathc : ∀ c ∈ path, isCTLChar c = false ∧ ¬(c = '%')) :
    getHostPort ("https://".data ++ host ++ portSegment portOpt ++ path)
      = (defaultedHostPort host portOpt, none) := by
  have hs := fun c hc => isHostChar_spec (hhost c hc)
  rcases portOpt with _ | p
  · -- no explicit port
    have hA : ∀ c ∈ host, ¬(c = '#') ∧ ¬(c = '?') ∧ ¬(c = '/') ∧ isCTLChar c = false :=
      fun c hc => ⟨(hs c hc).1, (hs c hc).2.1, (hs c hc).2.2.1, isHostChar_not_ctl (hhost c hc)⟩
    have hcolon : ∀ c ∈ host, ¬(c = ':') := fun c hc => (hs c hc).2.2.2.1
    have hauth : parseAuthority host = some host := by
      unfold parseAuthority
      rw [splitAtLast_eq_none (fun c hc => (hs c hc).2.2.2.2.1)]
      have hVH : validHostEscapes host = true :=
        validHostEscapes_of_no_percent host (fun c hc => (hs c hc).2.2.2.2.2.2)
      unfold parseHost
      obtain ⟨hc, htl, rfl⟩ := List.exists_cons_of_ne_nil hne
      rw [if_neg (by
        simp only [List.head?_cons, Option.some.injEq]
        exact (isHostChar_spec (hhost hc (List.mem_cons_self hc htl))).2.2.2.2.2.1)]
      rw [splitAtLast_eq_none hcolon]
      dsimp only
      rw [if_pos hVH]
    have hp0 : GoURL.port ⟨"https".data, host⟩ = [] := by
      unfold GoURL.port
      rw [splitAtLast_eq_none hcolon]
    simp only [portSegment, List.append_nil, List.append_assoc]
    unfold getHostPort
    rw [parseURL_https host path hA hpath hpathc, hauth]
    dsimp only [Option.map]
    rw [if_neg (fun h => h rfl)]
    simp [hp0, defaultedHostPort]
  · -- explicit port
    obtain ⟨hpne, hpd⟩ := hport p rfl
    have hpds := fun c hc => isDigit_spec (hpd c hc)
    have hA : ∀ c ∈ host ++ ':' :: p,
        ¬(c = '#') ∧ ¬(c = '?') ∧ ¬(c = '/') ∧ isCTLChar c = false := by
      intro c hc
      rcases List.mem_append.mp hc with h | h
      · exact ⟨(hs c h).1, (hs c h).2.1, (hs c h).2.2.1, isHostChar_not_ctl (hhost c h)⟩
      · rcases List.mem_cons.mp h with rfl | h
        · exact ⟨by decide, by decide, by decide, by decide⟩
        · exact ⟨(hpds c h).1, (hpds c h).2.1, (hpds c h).2.2.1, isDigit_not_ctl (hpd c h)⟩
    have hsplit : splitAtLast ':' (host ++ ':' :: p) = some (host, p) :=
      splitAtLast_append host p (fun c hc => (hpds c hc).2.2.2.1)
    have hv : validOptionalPort (':' :: p) = true := by
      unfold validOptionalPort
      simp only [Bool.and_eq_true, beq_self_eq_true, true_and]
      exact List.all_eq_true.mpr hpd
    have hVH : validHostEscapes (host ++ ':' :: p) = true := by
      refine validHostEscapes_of_no_percent _ ?_
      intro c hc
      rcases List.mem_append.mp hc with h | h
      · exact (hs c h).2.2.2.2.2.2
      · rcases List.mem_cons.mp h with rfl | h
        · decide
        · exact (hpds c h).2.2.2.2.2
    have hauth : parseAuthority (host ++ ':' :: p) = some (host ++ ':' :: p) := by
      unfold parseAuthority
      rw [splitAtLast_eq_none (by
        intro c hc
        rcases List.mem_append.mp hc with h | h
        · exact (hs c h).2.2.2.2.1
        · rcases List.mem_cons.mp h with rfl | h
          · decide
          · exact (hpds c h).2.2.2.2.1)]
      unfold parseHost
      obtain ⟨hc, htl, rfl⟩ := List.exists_cons_of_ne_nil hne
      rw [if_neg (by
        simp only [List.cons_append, List.head?_cons, Option.some.injEq]
        exact (isHostChar_spec (hhost hc (List.mem_cons_self hc htl))).2.2.2.2.2.1)]
      rw [hsplit]
      dsimp only
      rw [if_pos hv, if_pos hVH]
    have hpp : GoURL.port ⟨"https".data, host ++ ':' :: p⟩ = p := by
      unfold GoURL.port
      rw [hsplit]
      dsimp only
      rw [if_pos hv]
    simp only [portSegment]
    rw [List.append_assoc "https://".data host (':' :: p), List.append_assoc]
    unfold getHostPort
    rw [parseURL_https (host ++ ':' :: p) path hA hpath hpathc, hauth]
    dsimp only [Option.map]
    rw [if_neg (fun h => h rfl)]
    simp [hpp, hpne, defaultedHostPort]

/-- Witness for C1 at the concrete URL `https://example.org:8443/a`. -/
theorem getHostPort_https_wellformed_witness :
    getHostPort ("https://".data ++ "example.org".data
        ++ portSegment (some "8443".data) ++ "/a".data)
      = (defaultedHostPort "example.org".data (some "8443".data), none) :=
  getHostPort_https_wellformed "example.org".data "/a".data (some "8443".data)
    (by decide) (by decide)
    (fun p hp => by cases hp; exact ⟨by decide, by decide⟩)
    (Or.inr ⟨"a".data, rfl⟩)
    (by decide)

/-- C5: for every input string that parses as a URL whose scheme is not
exactly `https` (the parsed scheme, lower-cased as Go `url.Parse` does, so
`http`, `ftp` and the empty scheme are all instances), `getHostPort` fails
with the scheme error and returns the empty endpoint. -/
theorem getHostPort_scheme_reject (str : List Char) (u : GoURL)
    (hp : parseURL str = some u) (hs : u.scheme ≠ "https".data) :
    getHostPort str = ([], some UrlError.schemeError) := by
  unfold getHostPort
  rw [hp]
  dsimp only
  rw [if_pos hs]

/-- Witness for C5 at the concrete input `http://example.com`. -/
theorem getHostPort_scheme_reject_witness :
    getHostPort "http://example.com".data = ([], some UrlError.schemeError) :=
  getHostPort_scheme_reject "http://example.com".data
    ⟨"http".data, "example.com".data⟩ (by decide) (by decide)

/-- C10: whenever `getHostPort` reports an error (parse failure or scheme
rejection), the endpoint component of its result is exactly the empty
string. -/
theorem getHostPort_error_empty (str : List Char) (e : UrlError)
    (h : (getHostPort str).2 = some e) : (getHostPort str).1 = [] := by
  revert h
  unfold getHostPort
  rcases parseURL str with _ | u
  · intro h
    rfl
  · dsimp only
    split_ifs
    · intro h
      rfl
    · intro h
      simp at h
    · intro h
      simp at h

/-- Witness for C10 at the concrete input `:` (a parse failure in Go's
`url.Parse`: missing protocol scheme). -/
theorem getHostPort_error_empty_witness :
    (getHostPort ":".data).1 = [] :=
  getHostPort_error_empty ":".data UrlError.parseError (by decide)

/-- Counterexample for C3 as stated: with `expiry` 30 minutes before `now`
(`expiry = 0 < now = 1800000000000` nanoseconds), `getToExpiry` returns
`"<1h"`, not `"expired"`: Go's `int64(d.Hours())` truncates toward zero, so a
sub-hour negative difference gives hour count `0`, not a negative floor. -/
theorem getToExpiry_subhour_past_counterexample :
    (0 : Int) < 1800000000000 ∧
    getToExpiry 0 1800000000000 ≠ "expired" ∧
    getToExpiry 0 1800000000000 = "<1h" := by
  refine ⟨by decide, by decide, by decide⟩

/-- C3 (amended): for every pair of timestamps with `expiry` at least one
full hour before `now` (equivalently, truncated hour count negative),
`getToExpiry` returns `"expired"`. -/
theorem getToExpiry_expired_when_hour_past (expiry now : Int)
    (h : expiry + nsPerHour ≤ now) :
    getToExpiry expiry now = "expired" := by
  have hb : (0 : Int) < nsPerHour := by norm_num [nsPerHour]
  have h2 : 1 ≤ (-(expiry - now)) / nsPerHour :=
    (Int.le_ediv_iff_mul_le hb).mpr (by omega)
  have h3 : (-(expiry - now)).tdiv nsPerHour = (-(expiry - now)) / nsPerHour :=
    Int.tdiv_eq_ediv (by omega) (le_of_lt hb)
  have h4 : hoursRemaining expiry now < 0 := by
    unfold hoursRemaining
    have hneg := Int.neg_tdiv (-(expiry - now)) nsPerHour
    rw [neg_neg] at hneg
    rw [hneg, h3]
    omega
  unfold getToExpiry
  dsimp only
  rw [if_pos h4]

/-- Witness for the amended C3 at exactly one hour past expiry. -/
theorem getToExpiry_expired_when_hour_past_witness :
    getToExpiry 0 3600000000000 = "expired" :=
  getToExpiry_expired_when_hour_past 0 3600000000000 (by norm_num [nsPerHour])

/-- C8: `getToExpiry` is a pure function of the two timestamps alone — in
fact of their difference — so two calls with the same pair of timestamps
return the same bucket string and nothing else influences the result. -/
theorem getToExpiry_deterministic (e1 n1 e2 n2 : Int) (h : e1 - n1 = e2 - n2) :
    getToExpiry e1 n1 = getToExpiry e2 n2 := by
  unfold getToExpiry hoursRemaining
  rw [h]

/-- Witness for C8: two timestamp pairs with the same difference. -/
theorem getToExpiry_deterministic_witness :
    getToExpiry 3600000000005 5 = getToExpiry 3600000000000 0 :=
  getToExpiry_deterministic 3600000000005 5 3600000000000 0 (by decide)

/-- C9: on a successful handshake (which in Go's TLS stack always presents a
non-empty validated chain), `fetchCert` returns exactly the first certificate
(index 0) of the peer's presented chain, whatever the rest of the chain is. -/
theorem fetchCert_returns_chain_head (hostPort : String) (chain : List Cert)
    (h : chain ≠ []) :
    fetchCert hostPort (DialResult.success chain) = FetchOutcome.leaf (chain.head h) := by
  obtain ⟨c, rest, rfl⟩ := List.exists_cons_of_ne_nil h
  rfl

/-- Sample leaf certificate for concrete witnesses. -/
def certA : Cert := ⟨1767225600000000000, 12345, "ExampleCA"⟩

/-- Sample intermediate certificate for concrete witnesses. -/
def certB : Cert := ⟨1798761600000000000, 67890, "OtherCA"⟩

/-- Witness for C9 on a concrete two-certificate chain. -/
theorem fetchCert_returns_chain_head_witness :
    fetchCert "example.org:443" (DialResult.success [certA, certB])
      = FetchOutcome.leaf certA :=
  fetchCert_returns_chain_head "example.org:443" [certA, certB]
    (List.cons_ne_nil certA [certB])

/-- C4: the finalized success list is sorted — the composite key (the record
string: expiry date, bucket, URL, serial, issuer, space-joined) of each entry
is at most the next entry's — and re-running the sort on an already sorted
accumulation returns it unchanged, so the output is the same every time. -/
theorem finalize_sorted_and_idempotent (details : List String) :
    List.Chain' (fun a b => a ≤ b) (finalize details) ∧
    finalize (finalize details) = finalize details := by
  have htrans : ∀ a b c : String,
      decide (a ≤ b) = true → decide (b ≤ c) = true → decide (a ≤ c) = true := by
    intro a b c h1 h2
    simp only [decide_eq_true_eq] at h1 h2 ⊢
    exact le_trans h1 h2
  have htotal : ∀ a b : String, (decide (a ≤ b) || decide (b ≤ a)) = true := by
    intro a b
    rcases le_total a b with h | h <;> simp [h]
  have hs := List.sorted_mergeSort htrans htotal details
  refine ⟨?_, ?_⟩
  · exact (hs.imp (fun h => of_decide_eq_true h)).chain'
  · exact List.mergeSort_of_sorted hs

/-! ## Helper lemmas for the main loop -/

lemma runLines_cons (net : String → DialResult) (f : Int → String) (n : Int)
    (st : LoopState) (line : String) (rest : List String) :
    runLines net f n st (line :: rest)
      = match lineResult net f n line with
        | LineOutcome.ignored => runLines net f n st rest
        | LineOutcome.failure msg => runLines net f n ⟨st.details, st.errLines ++ [msg]⟩ rest
        | LineOutcome.panicked => none
        | LineOutcome.success r => runLines net f n ⟨st.details ++ [r], st.errLines⟩ rest := rfl

lemma lineResult_not_panicked (net : String → DialResult) (f : Int → String) (n : Int)
    (line : String)
    (hNet : ∀ hp chain, net hp = DialResult.success chain → chain ≠ []) :
    lineResult net f n line ≠ LineOutcome.panicked := by
  unfold lineResult
  by_cases hi : isIgnored line = true
  · rw [if_pos hi]
    simp
  · rw [if_neg hi]
    dsimp only
    rcases he : (getHostPort line.data).2 with _ | e
    · rcases hd : net ⟨(getHostPort line.data).1⟩ with cause | chain
      · simp [fetchCert]
      · have hch := hNet _ chain hd
        obtain ⟨c, cs, rfl⟩ := List.exists_cons_of_ne_nil hch
        simp [fetchCert]
    · simp

lemma lineResult_eq_ignored_iff (net : String → DialResult) (f : Int → String) (n : Int)
    (line : String) :
    lineResult net f n line = LineOutcome.ignored ↔ isIgnored line = true := by
  unfold lineResult
  by_cases hi : isIgnored line = true
  · simp [hi]
  · rw [if_neg hi]
    dsimp only
    rcases he : (getHostPort line.data).2 with _ | e
    · rcases hd : net ⟨(getHostPort line.data).1⟩ with cause | chain
      · simp [fetchCert, hi]
      · cases chain with
        | nil => simp [fetchCert, hi]
        | cons c cs => simp [fetchCert, hi]
    · simp [hi]

lemma runLines_count (net : String → DialResult) (f : Int → String) (n : Int)
    (hNet : ∀ hp chain, net hp = DialResult.success chain → chain ≠ [])
    (lines : List String) :
    ∀ st : LoopState,
      ∃ st2, runLines net f n st lines = some st2 ∧
        st2.details.length + st2.errLines.length
          = st.details.length + st.errLines.length
            + lines.countP (fun l => !(isIgnored l)) := by
  induction lines with
  | nil =>
    intro st
    exact ⟨st, rfl, by simp⟩
  | cons line rest ih =>
    intro st
    rw [runLines_cons]
    rcases ho : lineResult net f n line with _ | msg | _ | r
    · have hi : isIgnored line = true := (lineResult_eq_ignored_iff net f n line).mp ho
      obtain ⟨st2, h1, h2⟩ := ih st
      exact ⟨st2, h1, by simp [h2, List.countP_cons, hi]⟩
    · have hi : isIgnored line = false := by
        by_contra hcon
        rw [Bool.not_eq_false] at hcon
        have hig := (lineResult_eq_ignored_iff net f n line).mpr hcon
        rw [ho] at hig
        exact absurd hig (by simp)
      obtain ⟨st2, h1, h2⟩ := ih ⟨st.details, st.errLines ++ [msg]⟩
      refine ⟨st2, h1, ?_⟩
      simp only [List.countP_cons, hi] at h2 ⊢
      simp at h2 ⊢
      omega
    · exact absurd ho (lineResult_not_panicked net f n line hNet)
    · have hi : isIgnored line = false := by
        by_contra hcon
        rw [Bool.not_eq_false] at hcon
        have hig := (lineResult_eq_ignored_iff net f n line).mpr hcon
        rw [ho] at hig
        exact absurd hig (by simp)
      obtain ⟨st2, h1, h2⟩ := ih ⟨st.details ++ [r], st.errLines⟩
      refine ⟨st2, h1, ?_⟩
      simp only [List.countP_cons, hi] at h2 ⊢
      simp at h2 ⊢
      omega

/-- C6: provided the TLS stack only reports success with a non-empty chain
(the `hNet` hypothesis), the loop never aborts and produces exactly one
result per non-ignored input line: the number of success records plus the
number of error lines equals the number of non-blank, non-comment input
lines. -/
theorem pipeline_one_result_per_line (net : String → DialResult) (fmtDate : Int → String)
    (now : Int) (lines : List String)
    (hNet : ∀ hp chain, net hp = DialResult.success chain → chain ≠ []) :
    ∃ st, runLines net fmtDate now ⟨[], []⟩ lines = some st ∧
      st.details.length + st.errLines.length
        = lines.countP (fun l => !(isIgnored l)) := by
  obtain ⟨st, h1, h2⟩ := runLines_count net fmtDate now hNet lines ⟨[], []⟩
  exact ⟨st, h1, by simpa using h2⟩

lemma runLines_append (net : String → DialResult) (f : Int → String) (n : Int)
    (l1 l2 : List String) :
    ∀ st : LoopState,
      runLines net f n st (l1 ++ l2)
        = (runLines net f n st l1).bind (fun st1 => runLines net f n st1 l2) := by
  induction l1 with
  | nil => intro st; rfl
  | cons line rest ih =>
    intro st
    rw [List.cons_append, runLines_cons, runLines_cons]
    rcases lineResult net f n line with _ | msg | _ | r
    · exact ih st
    · exact ih _
    · rfl
    · exact ih _

lemma runLines_shift (net : String → DialResult) (f : Int → String) (n : Int)
    (lines : List String) :
    ∀ st : LoopState,
      runLines net f n st lines
        = Option.map (fun d => LoopState.mk (st.details ++ d.details) (st.errLines ++ d.errLines))
            (runLines net f n ⟨[], []⟩ lines) := by
  induction lines with
  | nil => intro st; simp [runLines]
  | cons line rest ih =>
    intro st
    rw [runLines_cons, runLines_cons]
    rcases lineResult net f n line with _ | msg | _ | r <;> dsimp only
    · rw [ih st]
    · rw [ih ⟨st.details, st.errLines ++ [msg]⟩, ih ⟨[], [] ++ [msg]⟩]
      cases runLines net f n ⟨[], []⟩ rest <;> simp
    · rfl
    · rw [ih ⟨st.details ++ [r], st.errLines⟩, ih ⟨[] ++ [r], []⟩]
      cases runLines net f n ⟨[], []⟩ rest <;> simp

/-- C7: a line whose processing fails (any of the four error kinds ends in
the same `LineOutcome.failure`) is non-fatal: its error message is appended
to the error output and every remaining line is processed exactly as it
would have been on its own, contributing the same records and error lines. -/
theorem failure_nonfatal (net : String → DialResult) (fmtDate : Int → String) (now : Int)
    (pre post : List String) (bad m : String) (stPre stPost : LoopState)
    (hbad : lineResult net fmtDate now bad = LineOutcome.failure m)
    (hpre : runLines net fmtDate now ⟨[], []⟩ pre = some stPre)
    (hpost : runLines net fmtDate now ⟨[], []⟩ post = some stPost) :
    runLines net fmtDate now ⟨[], []⟩ (pre ++ bad :: post)
      = some ⟨stPre.details ++ stPost.details,
              stPre.errLines ++ m :: stPost.errLines⟩ := by
  rw [runLines_append, hpre]
  show runLines net fmtDate now stPre (bad :: post) = _
  rw [runLines_cons, hbad]
  dsimp only
  rw [runLines_shift net fmtDate now post ⟨stPre.details, stPre.errLines ++ [m]⟩, hpost]
  simp

/-- Sample network for concrete witnesses: every dial fails. -/
def net0 : String → DialResult := fun _ => DialResult.failure "connection refused"

/-- Sample date formatter for concrete witnesses. -/
def fmt0 : Int → String := fun _ => "1970-01-01"

/-- Witness for C7: a scheme-rejected line surrounded by empty batches. -/
theorem failure_nonfatal_witness :
    runLines net0 fmt0 0 ⟨[], []⟩ ([] ++ "ftp://x" :: [])
      = some ⟨[] ++ [], [] ++ "lscerts \"ftp://x\": url scheme not https" :: []⟩ :=
  failure_nonfatal net0 fmt0 0 [] [] "ftp://x"
    "lscerts \"ftp://x\": url scheme not https" ⟨[], []⟩ ⟨[], []⟩
    (by decide) rfl rfl

/-- Witness for C6 on four concrete lines (two ignored, two failing). -/
theorem pipeline_one_result_per_line_witness :
    ∃ st, runLines net0 fmt0 0 ⟨[], []⟩ ["", "# c", "https://example.org", "ftp://x"] = some st ∧
      st.details.length + st.errLines.length
        = List.countP (fun l => !(isIgnored l)) ["", "# c", "https://example.org", "ftp://x"] :=
  pipeline_one_result_per_line net0 fmt0 0 ["", "# c", "https://example.org", "ftp://x"]
    (fun _ _ h => nomatch h)

end Lscerts
